import Mathlib

/-!
Verification of the AutoRAG tutorial repository.

The repository ships tutorial scripts (`tutorial/tutorial_autorag.py`,
`tutorial/run_ollama.py`, `tutorial/run_web_ollama.py`) driving the AutoRAG
evaluation engine.  The engine itself (strategy selection, rank fusion,
restartable pipeline execution, the on-disk trial layout) is invoked through
the `autorag` package and is not part of the provided sources, so those parts
are modelled from the specification; the tutorial functions
(`verificar_dependencias`, `executar_avaliacao`, `analisar_resultados`,
`comparar_metodos`) are embedded directly from `tutorial_autorag.py`.
-/

namespace AutoRAG

/-! ### Stable insertion sort

Used throughout: fused rankings are re-sorted descending with a stable sort
(spec section 4.2) and `comparar_metodos` / `analisar_resultados` sort rows
and directory listings.  `insertLe le a l` inserts `a` before the first
element `b` with `le a b`; `sortLe` is the induced stable insertion sort. -/

def insertLe (le : α → α → Bool) (a : α) : List α → List α
  | [] => [a]
  | b :: bs => if le a b then a :: b :: bs else b :: insertLe le a bs

def sortLe (le : α → α → Bool) : List α → List α
  | [] => []
  | a :: as => insertLe le a (sortLe le as)

/-! ### Strategy Selector

Modelled from the spec: "maximize the first metric listed in
`strategy.metrics` (the list order is significant — it is a priority
ranking, not an unordered set). Ties on the first metric are broken by the
second listed metric, recursively; a final tie retains the module appearing
earliest in the YAML's module/parameter enumeration order."  The selector
itself lives in the `autorag` package and is not among the provided
sources.  A candidate's metric scores form a vector ordered by
`strategy.metrics`; `lexGt` is the strict priority comparison and
`selectBestIdx` keeps the earliest candidate that no later candidate
strictly beats. -/

abbrev ScoreVec := List ℚ

def lexGt : ScoreVec → ScoreVec → Bool
  | a :: as, b :: bs => if b < a then true else if a < b then false else lexGt as bs
  | _, _ => false

def selOut (bi : Nat) (bs : ScoreVec) (i : Nat) : List ScoreVec → Nat × ScoreVec
  | [] => (bi, bs)
  | s :: rest => if lexGt s bs then selOut i s (i + 1) rest else selOut bi bs (i + 1) rest

def selectBestIdx : List ScoreVec → Option Nat
  | [] => none
  | s :: rest => some (selOut 0 s 1 rest).1

/-- One Module Candidate Result row of a node summary. -/
structure CandidateRow where
  moduleName : String
  scores : ScoreVec
  is_best : Bool
deriving DecidableEq

/-- Modelled from the spec: the Strategy Selector emits the Summary Record
for the node (one row per candidate) with the `is_best` flag set.  `i` is
the selected index and `j` the position of the first remaining row. -/
def markRows (i : Nat) (j : Nat) : List (String × ScoreVec) → List CandidateRow
  | [] => []
  | c :: cs => ⟨c.1, c.2, decide (j = i)⟩ :: markRows i (j + 1) cs

def selectNode (cands : List (String × ScoreVec)) : List CandidateRow :=
  match selectBestIdx (cands.map Prod.snd) with
  | none => []
  | some i => markRows i 0 cands

/-! ### Pipeline Executor and Restart Engine

Modelled from the spec: node-lines are consumed as one linear chain of
nodes; each node evaluates its candidates on the upstream input, the
Strategy Selector picks a winner whose output is propagated, and the
winners of completed nodes are persisted.  The Restart Engine resumes from
the first node lacking a persisted summary, reusing persisted winners
verbatim.  A `PNode` abstracts one node as the deterministic map from
upstream input to each candidate's (output, score-vector) pair. -/

structure PNode (α : Type) where
  evalCands : α → List (α × ScoreVec)

def runNode (nd : PNode α) (inp : α) : Option (Nat × α) :=
  match selectBestIdx ((nd.evalCands inp).map Prod.snd) with
  | none => none
  | some i => some (i, ((nd.evalCands inp).getD i (inp, [])).1)

def runPipeline (nodes : List (PNode α)) (inp : α) : Option (List Nat × α) :=
  match nodes with
  | [] => some ([], inp)
  | nd :: rest =>
    match runNode nd inp with
    | none => none
    | some (i, out) =>
      match runPipeline rest out with
      | none => none
      | some (sel, fin) => some (i :: sel, fin)

/-- The first `k` nodes of an uninterrupted run, as persisted by the Trial
State Store: winner index and winner output per completed node, plus the
upstream input of the next node. -/
def runFirstK (nodes : List (PNode α)) (inp : α) : Nat → Option (List (Nat × α) × α)
  | 0 => some ([], inp)
  | Nat.succ k =>
    match nodes with
    | [] => none
    | nd :: rest =>
      match runNode nd inp with
      | none => none
      | some (i, out) =>
        match runFirstK rest out k with
        | none => none
        | some (per, mid) => some ((i, out) :: per, mid)

def resumeUpstream (inp : α) (persisted : List (Nat × α)) : α :=
  match persisted.getLast? with
  | none => inp
  | some iw => iw.2

/-- Modelled from the spec: the Restart Engine resumes the Pipeline
Executor from the first incomplete node (`persisted.length`), reusing the
persisted winners verbatim — the skipped nodes are not re-executed. -/
def restartRun (nodes : List (PNode α)) (inp : α) (persisted : List (Nat × α)) :
    Option (List Nat × α) :=
  match runPipeline (nodes.drop persisted.length) (resumeUpstream inp persisted) with
  | none => none
  | some selFin => some (persisted.map Prod.fst ++ selFin.1, selFin.2)

/-! ### Reciprocal Rank Fusion

Modelled from the spec: "combined score for a document = sum over input
lists of `1 / (k + rank_in_list)`; documents absent from a list are
excluded from that term", descending re-sort, truncation to `top_k`, ties
broken by preserving the order of the first input list (stable sort). -/

def rankIn : List String → String → Option Nat
  | [], _ => none
  | a :: as, d => if d = a then some 1 else (rankIn as d).map (· + 1)

def rrfScoreOf (k : ℚ) (lists : List (List String)) (d : String) : ℚ :=
  (lists.map (fun l =>
    match rankIn l d with
    | some r => 1 / (k + r)
    | none => 0)).sum

def dedupAcc (seen : List String) : List String → List String
  | [] => []
  | a :: as => if a ∈ seen then dedupAcc seen as else a :: dedupAcc (a :: seen) as

/-- Candidate documents in tie-break order: first input list first, later
lists appended, duplicates dropped. -/
def candidateDocs (lists : List (List String)) : List String :=
  dedupAcc [] lists.flatten

def rrfFuse (k : ℚ) (topk : Nat) (lists : List (List String)) : List (String × ℚ) :=
  (sortLe (fun a b => decide (b.2 ≤ a.2))
    ((candidateDocs lists).map (fun d => (d, rrfScoreOf k lists d)))).take topk

/-! ### Per-item retry loop

Modelled from the spec: a single QA item causing a module exception is
"retried a bounded number of times, then scored as the metric's worst value
for that item only; does not abort the module's evaluation."  An item's
evaluation attempts are a map from attempt number to outcome. -/

def itemEval (attempt : Nat → Except String ℚ) : Nat → Nat → ℚ → Except String ℚ
  | _, 0, worst => .ok worst
  | t, Nat.succ n, worst =>
    match attempt t with
    | .ok v => .ok v
    | .error _ => itemEval attempt (t + 1) n worst

/-- Evaluates every QA item of one module, propagating any error an item
evaluation might surface. -/
def evalModuleScores (items : List (Nat → Except String ℚ)) (maxTries : Nat)
    (worst : ℚ) : Except String (List ℚ) :=
  items.foldr
    (fun it acc =>
      match itemEval it 0 maxTries worst, acc with
      | .ok v, .ok vs => .ok (v :: vs)
      | .error e, _ => .error e
      | .ok _, .error e => .error e)
    (.ok [])

/-! ### Persisted trial layout

Modelled from the spec: "a trial directory named by a monotonically
increasing integer under the project directory, containing one subdirectory
per node-line (named `<name>_node_line`), each containing one subdirectory
per node (named by node type), each containing a `summary.csv` (Summary
Record rows) and one result file per module candidate; a trial-root
`summary.csv` aggregates the winning module and parameters per node."
Paths are lists of components relative to the project directory. -/

def digitChar (d : Nat) : Char := Char.ofNat (48 + d)

def natRepr (n : Nat) : String :=
  if n = 0 then "0" else String.mk (((Nat.digits 10 n).map digitChar).reverse)

def strEndsWith (s suf : String) : Bool := decide (suf.data <:+ s.data)

def isDigitName (s : String) : Bool := decide (s.data ≠ []) && s.data.all Char.isDigit

structure NodeDir where
  nodeType : String
  resultFiles : List String

structure NodeLineDir where
  lineName : String
  nodes : List NodeDir

structure TrialFS where
  trialId : Nat
  nodeLines : List NodeLineDir

def nodeSummaryPath (t : TrialFS) (nl : NodeLineDir) (nd : NodeDir) : List String :=
  [natRepr t.trialId, nl.lineName ++ "_node_line", nd.nodeType, "summary.csv"]

def rootSummaryPath (t : TrialFS) : List String :=
  [natRepr t.trialId, "summary.csv"]

def persistTrial (t : TrialFS) : List (List String) :=
  rootSummaryPath t ::
    t.nodeLines.flatMap (fun nl =>
      nl.nodes.flatMap (fun nd =>
        nodeSummaryPath t nl nd ::
          nd.resultFiles.map (fun f =>
            [natRepr t.trialId, nl.lineName ++ "_node_line", nd.nodeType, f])))

def matchesNodeSummary : List String → Bool
  | [t, nl, _, f] => isDigitName t && strEndsWith nl "_node_line" && decide (f = "summary.csv")
  | _ => false

def matchesRootSummary : List String → Bool
  | [t, f] => isDigitName t && decide (f = "summary.csv")
  | _ => false

/-- A reader that globs digit-named trial directories, `*_node_line`
subdirectories, node-type subdirectories and `summary.csv` files. -/
def globSummaries (paths : List (List String)) : List (List String) :=
  paths.filter (fun p => matchesRootSummary p || matchesNodeSummary p)

/-! ### Tutorial embeddings (from `tutorial/tutorial_autorag.py`) -/

def TUTORIAL_DIR : String := "tutorial"

def joinPath (a b : String) : String := a ++ "/" ++ b

def CONFIG_FILES : List (String × String) :=
  [("simples", joinPath TUTORIAL_DIR "config_simples.yaml"),
   ("local", joinPath TUTORIAL_DIR "config_local.yaml"),
   ("bm25_compare", joinPath TUTORIAL_DIR "config_comparacao_bm25.yaml"),
   ("openai", joinPath TUTORIAL_DIR "config_memoria_completo.yaml")]

def PROJECT_DIRS : List (String × String) :=
  [("simples", joinPath TUTORIAL_DIR "projeto_simples"),
   ("local", joinPath TUTORIAL_DIR "projeto_local"),
   ("bm25_compare", joinPath TUTORIAL_DIR "projeto_bm25_compare"),
   ("openai", joinPath TUTORIAL_DIR "projeto_openai")]

/-- The ambient Python environment `verificar_dependencias` and
`executar_avaliacao` probe: which imports succeed, whether
`OPENAI_API_KEY` is set, which files exist. -/
structure DepsEnv where
  pandasInstalled : Bool
  torchInstalled : Bool
  sentenceTransformersInstalled : Bool
  openaiKeySet : Bool
  fileExists : String → Bool

/-- `verificar_dependencias` (tutorial_autorag.py lines 738-788): pandas is
always required; torch for `local` and `openai`; sentence-transformers for
`local`; the API key for `openai`. -/
def verificar_dependencias (env : DepsEnv) (tipo : String) : Bool :=
  if !env.pandasInstalled then false
  else if (decide (tipo = "local") || decide (tipo = "openai")) && !env.torchInstalled then false
  else if decide (tipo = "local") && !env.sentenceTransformersInstalled then false
  else if decide (tipo = "openai") && !env.openaiKeySet then false
  else true

/-- `deps_type` as computed inside `executar_avaliacao` (lines 811-816). -/
def depsTypeOf (config_key : String) : String :=
  if config_key = "local" then "local"
  else if config_key = "openai" then "openai"
  else "simples"

/-- Observable outcome of `executar_avaliacao`: its return value, and
whether an `Evaluator` was constructed / `start_trial` called. -/
structure ExecResult where
  retorno : Option String
  evaluatorCreated : Bool
  trialStarted : Bool
deriving DecidableEq

/-- `executar_avaliacao` (tutorial_autorag.py lines 791-848). -/
def executar_avaliacao (env : DepsEnv) (config_key : String)
    (skip_deps_check : Bool) : ExecResult :=
  let config_path := CONFIG_FILES.lookup config_key
  let project_dir := PROJECT_DIRS.lookup config_key
  match config_path with
  | none => ⟨none, false, false⟩
  | some p =>
    if !env.fileExists p then ⟨none, false, false⟩
    else if !skip_deps_check && !verificar_dependencias env (depsTypeOf config_key) then
      ⟨none, false, false⟩
    else ⟨project_dir, true, true⟩

/-! ### `analisar_resultados` with `project_dir=None`
(tutorial_autorag.py lines 913-947): scan `projeto_*` entries of the
tutorial directory, and analyse the last (in sorted order) trial directory
matching `[0-9]*` of each project that has one. -/

structure TutorialFS where
  tutorialEntries : List String
  projectEntries : String → List String

def matchProjetoGlob (s : String) : Bool := decide ("projeto_".data <+: s.data)

def matchTrialGlob (s : String) : Bool :=
  match s.data with
  | [] => false
  | c :: _ => c.isDigit

def strLe (a b : String) : Bool := decide (a ≤ b)

def sortedStr (l : List String) : List String := sortLe strLe l

/-- The (project, analysed trial) pairs produced by the
`for proj_dir in project_dirs` loop when `project_dir` is `None`. -/
def analisar_projetos (fs : TutorialFS) : List (String × String) :=
  (sortedStr (fs.tutorialEntries.filter matchProjetoGlob)).filterMap (fun proj =>
    match (sortedStr ((fs.projectEntries proj).filter matchTrialGlob)).getLast? with
    | none => none
    | some t => some (proj, t))

/-! ### `comparar_metodos` (tutorial_autorag.py lines 1003-1086) -/

/-- One row of a node `summary.csv` as read by `comparar_metodos`. -/
structure SRow where
  module_name : String
  is_best : Bool
  metrics : List (String × ℚ)
deriving DecidableEq

/-- `best.get(col, 0)`: a metric column absent from the summary reads 0. -/
def getMetric (r : SRow) (m : String) : ℚ := (r.metrics.lookup m).getD 0

structure MRow where
  metodo : String
  modulo : String
  f1 : ℚ
  recallCol : ℚ
  precisionCol : ℚ
  ndcg : ℚ
  mrr : ℚ
deriving DecidableEq

/-- `node_type.replace("_retrieval", "").title()` on the three node types
the loop visits. -/
def metodoName (node_type : String) : String :=
  if node_type = "lexical_retrieval" then "Lexical"
  else if node_type = "semantic_retrieval" then "Semantic"
  else if node_type = "hybrid_retrieval" then "Hybrid"
  else node_type

def retrievalNodeTypes : List String :=
  ["lexical_retrieval", "semantic_retrieval", "hybrid_retrieval"]

/-- The `results` list collected by `comparar_metodos`: per node type, the
first `is_best` row of its summary (when the summary exists and has one). -/
def coletarResultados (summaries : String → Option (List SRow)) : List MRow :=
  retrievalNodeTypes.filterMap (fun nt =>
    match summaries nt with
    | none => none
    | some rows =>
      match rows.filter (fun r => r.is_best) with
      | [] => none
      | b :: _ =>
        some ⟨metodoName nt, b.module_name, getMetric b "retrieval_f1",
          getMetric b "retrieval_recall", getMetric b "retrieval_precision",
          getMetric b "retrieval_ndcg", getMetric b "retrieval_mrr"⟩)

/-- `results_df.sort_values('F1', ascending=False)`. -/
def ordenarPorF1 (rows : List MRow) : List MRow :=
  sortLe (fun a b => decide (b.f1 ≤ a.f1)) rows

/-- The recommendation branch, keyed only on the winner's method name. -/
def recomendacao (metodo : String) : String :=
  if metodo = "Hybrid" then "O metodo hibrido obteve os melhores resultados"
  else if metodo = "Lexical" then "A busca lexica (BM25) obteve os melhores resultados"
  else "A busca semantica obteve os melhores resultados"

/-- Winner row (`results_df.iloc[0]` after the sort) and its
recommendation; `none` when no summary contributed a row. -/
def comparar_metodos (summaries : String → Option (List SRow)) :
    Option (MRow × String) :=
  match (ordenarPorF1 (coletarResultados summaries)).head? with
  | none => none
  | some w => some (w, recomendacao w.metodo)

theorem insertLe_perm (le : α → α → Bool) (a : α) (l : List α) :
    (insertLe le a l).Perm (a :: l) := by
  induction l with
  | nil => exact List.Perm.refl _
  | cons b bs ih =>
    simp only [insertLe]
    by_cases h : le a b
    · simp only [if_pos h]
      exact List.Perm.refl _
    · simp only [if_neg h]
      exact (List.Perm.cons b ih).trans (List.Perm.swap a b bs)

theorem sortLe_perm (le : α → α → Bool) (l : List α) :
    (sortLe le l).Perm l := by
  induction l with
  | nil => exact List.Perm.refl _
  | cons a as ih =>
    exact (insertLe_perm le a (sortLe le as)).trans (List.Perm.cons a ih)

theorem mem_sortLe (le : α → α → Bool) (l : List α) (x : α) :
    x ∈ sortLe le l ↔ x ∈ l :=
  (sortLe_perm le l).mem_iff

theorem insertLe_pairwise (le : α → α → Bool)
    (htot : ∀ a b, le a b = true ∨ le b a = true)
    (htrans : ∀ a b c, le a b = true → le b c = true → le a c = true)
    (a : α) (l : List α) (hl : l.Pairwise (fun x y => le x y = true)) :
    (insertLe le a l).Pairwise (fun x y => le x y = true) := by
  induction l with
  | nil => simp [insertLe]
  | cons b bs ih =>
    simp only [insertLe]
    rcases List.pairwise_cons.mp hl with ⟨hb, hbs⟩
    by_cases h : le a b = true
    · simp only [h, if_true]
      refine List.pairwise_cons.mpr ⟨?_, hl⟩
      intro x hx
      rcases List.mem_cons.mp hx with rfl | hx
      · exact h
      · exact htrans a b x h (hb x hx)
    · simp only [h, if_false]
      refine List.pairwise_cons.mpr ⟨?_, ih hbs⟩
      intro x hx
      rcases List.mem_cons.mp ((insertLe_perm le a bs).mem_iff.mp hx) with rfl | hmem
      · rcases htot x b with h1 | h1
        · exact absurd h1 h
        · exact h1
      · exact hb x hmem

theorem sortLe_pairwise (le : α → α → Bool)
    (htot : ∀ a b, le a b = true ∨ le b a = true)
    (htrans : ∀ a b c, le a b = true → le b c = true → le a c = true)
    (l : List α) :
    (sortLe le l).Pairwise (fun x y => le x y = true) := by
  induction l with
  | nil => simp [sortLe]
  | cons a as ih => exact insertLe_pairwise le htot htrans a (sortLe le as) ih

theorem sortLe_eq_self (le : α → α → Bool) (l : List α)
    (h : l.Pairwise (fun x y => le x y = true)) :
    sortLe le l = l := by
  induction l with
  | nil => rfl
  | cons a as ih =>
    rcases List.pairwise_cons.mp h with ⟨ha, has⟩
    rw [sortLe, ih has]
    cases as with
    | nil => rfl
    | cons b bs =>
      simp only [insertLe, ha b (by simp), if_true]

theorem sortLe_head_max (le : α → α → Bool)
    (htot : ∀ a b, le a b = true ∨ le b a = true)
    (htrans : ∀ a b c, le a b = true → le b c = true → le a c = true)
    (l : List α) (w : α) (hw : (sortLe le l).head? = some w) :
    ∀ x ∈ l, le w x = true := by
  intro x hx
  have hx' : x ∈ sortLe le l := (mem_sortLe le l x).mpr hx
  have hp := sortLe_pairwise le htot htrans l
  cases hsort : sortLe le l with
  | nil => rw [hsort] at hx'; cases hx'
  | cons h t =>
    rw [hsort] at hw hp hx'
    have hwh : h = w := by simpa using hw
    subst hwh
    rcases List.mem_cons.mp hx' with rfl | hx'
    · rcases htot x x with h1 | h1 <;> exact h1
    · exact (List.pairwise_cons.mp hp).1 x hx'

theorem mem_of_getLast?_eq {l : List α} {w : α} (hw : l.getLast? = some w) :
    w ∈ l := by
  rcases List.mem_getLast?_eq_getLast (Option.mem_def.mpr hw) with ⟨h, rfl⟩
  exact List.getLast_mem h

theorem pairwise_rel_getLast {R : α → α → Prop} (hrefl : ∀ a, R a a) :
    ∀ (l : List α) (w : α), l.Pairwise R → l.getLast? = some w →
      ∀ x ∈ l, R x w := by
  intro l
  induction l with
  | nil => intro w _ hw; simp at hw
  | cons a as ih =>
    intro w hp hw x hx
    cases as with
    | nil =>
      have hwa : a = w := by simpa using hw
      have hxa : x = a := by simpa using hx
      subst hwa; subst hxa
      exact hrefl x
    | cons b bs =>
      have hw' : (b :: bs).getLast? = some w := by
        rwa [List.getLast?_cons_cons] at hw
      have hwmem : w ∈ b :: bs := mem_of_getLast?_eq hw'
      rcases List.pairwise_cons.mp hp with ⟨ha, htail⟩
      rcases List.mem_cons.mp hx with rfl | hx2
      · exact ha w hwmem
      · exact ih w htail hw' x hx2

theorem sortLe_getLast_max (le : α → α → Bool)
    (htot : ∀ a b, le a b = true ∨ le b a = true)
    (htrans : ∀ a b c, le a b = true → le b c = true → le a c = true)
    (l : List α) (w : α) (hw : (sortLe le l).getLast? = some w) :
    ∀ x ∈ l, le x w = true := by
  intro x hx
  have hrefl : ∀ a, le a a = true := by
    intro a; rcases htot a a with h1 | h1 <;> exact h1
  exact pairwise_rel_getLast hrefl (sortLe le l) w
    (sortLe_pairwise le htot htrans l) hw x ((mem_sortLe le l x).mpr hx)

/-! ### Properties of the priority comparison `lexGt` -/

theorem lexGt_irrefl (a : ScoreVec) : lexGt a a = false := by
  induction a with
  | nil => rfl
  | cons x xs ih => simp [lexGt, ih]

theorem lexGt_trans {a b c : ScoreVec} (hab : lexGt a b = true)
    (hbc : lexGt b c = true) : lexGt a c = true := by
  induction a generalizing b c with
  | nil => simp [lexGt] at hab
  | cons x xs ih =>
    cases b with
    | nil => simp [lexGt] at hab
    | cons y ys =>
      cases c with
      | nil => simp [lexGt] at hbc
      | cons z zs =>
        simp only [lexGt] at hab hbc ⊢
        by_cases h1 : y < x
        · by_cases h2 : z < y
          · rw [if_pos (lt_trans h2 h1)]
          · rw [if_neg h2] at hbc
            by_cases h3 : y < z
            · rw [if_pos h3] at hbc; simp at hbc
            · have hzy : z = y := le_antisymm (not_lt.mp h3) (not_lt.mp h2)
              subst hzy
              rw [if_pos h1]
        · rw [if_neg h1] at hab
          by_cases h4 : x < y
          · rw [if_pos h4] at hab; simp at hab
          · rw [if_neg h4] at hab
            have hxy : x = y := le_antisymm (not_lt.mp h1) (not_lt.mp h4)
            subst hxy
            by_cases h2 : z < x
            · rw [if_pos h2]
            · rw [if_neg h2] at hbc ⊢
              by_cases h3 : x < z
              · rw [if_pos h3] at hbc; simp at hbc
              · rw [if_neg h3] at hbc ⊢
                exact ih hab hbc

theorem lexGt_asymm {a b : ScoreVec} (h : lexGt a b = true) :
    lexGt b a = false := by
  cases hba : lexGt b a with
  | false => rfl
  | true =>
    have h2 := lexGt_trans h hba
    rw [lexGt_irrefl] at h2
    exact absurd h2 (by simp)

theorem lexGt_total {a b : ScoreVec} (hlen : a.length = b.length)
    (hab : lexGt a b = false) : a = b ∨ lexGt b a = true := by
  induction a generalizing b with
  | nil =>
    cases b with
    | nil => exact Or.inl rfl
    | cons y ys => simp at hlen
  | cons x xs ih =>
    cases b with
    | nil => simp at hlen
    | cons y ys =>
      simp only [lexGt] at hab ⊢
      by_cases h1 : y < x
      · rw [if_pos h1] at hab; simp at hab
      · rw [if_neg h1] at hab
        by_cases h2 : x < y
        · right; rw [if_pos h2]
        · rw [if_neg h2] at hab
          have hxy : x = y := le_antisymm (not_lt.mp h1) (not_lt.mp h2)
          subst hxy
          have hlen' : xs.length = ys.length := by simpa using hlen
          rcases ih hlen' hab with heq | hgt
          · left; rw [heq]
          · right
            rw [if_neg (lt_irrefl x), if_neg (lt_irrefl x)]
            exact hgt

/-! ### Properties of the selection fold -/

theorem selOut_fst_cases :
    ∀ (rest : List ScoreVec) (bi i : Nat) (bs : ScoreVec),
      (selOut bi bs i rest).1 = bi ∨
        ∃ j, j < rest.length ∧ (selOut bi bs i rest).1 = i + j := by
  intro rest
  induction rest with
  | nil => intro bi i bs; exact Or.inl rfl
  | cons s rest ih =>
    intro bi i bs
    simp only [selOut]
    by_cases h : lexGt s bs = true
    · rw [if_pos h]
      rcases ih i (i + 1) s with h1 | ⟨j, hj, h1⟩
      · exact Or.inr ⟨0, by simp, by simpa using h1⟩
      · exact Or.inr ⟨j + 1, by simpa using hj, by omega⟩
    · rw [if_neg h]
      rcases ih bi (i + 1) bs with h1 | ⟨j, hj, h1⟩
      · exact Or.inl h1
      · exact Or.inr ⟨j + 1, by simpa using hj, by omega⟩

theorem selectBestIdx_lt_length {scores : List ScoreVec} {i : Nat}
    (h : selectBestIdx scores = some i) : i < scores.length := by
  cases scores with
  | nil => simp [selectBestIdx] at h
  | cons s rest =>
    simp only [selectBestIdx, Option.some.injEq] at h
    rcases selOut_fst_cases rest 0 1 s with h1 | ⟨j, hj, h1⟩ <;>
      rw [h1] at h <;> simp only [List.length_cons] <;> omega

/-- Main invariant of the selection fold over the full candidate list:
the running best is unbeaten by everything already processed and strictly
beats everything before its own position. -/
theorem selOut_spec {n : Nat} (full : List ScoreVec)
    (hlen : ∀ s ∈ full, s.length = n) :
    ∀ (rest : List ScoreVec) (i bi : Nat) (bs : ScoreVec),
      rest = full.drop i → bi < i → bi < full.length →
      full.getD bi [] = bs →
      (∀ j, j < i → lexGt (full.getD j []) bs = false) →
      (∀ j, j < bi → lexGt bs (full.getD j []) = true) →
      (selOut bi bs i rest).1 < full.length ∧
      full.getD (selOut bi bs i rest).1 [] = (selOut bi bs i rest).2 ∧
      (∀ j, j < full.length →
        lexGt (full.getD j []) (selOut bi bs i rest).2 = false) ∧
      (∀ j, j < (selOut bi bs i rest).1 →
        lexGt (selOut bi bs i rest).2 (full.getD j []) = true) := by
  intro rest
  induction rest with
  | nil =>
    intro i bi bs hrest hbii hbil hgd hunbeat hearly
    have hli : full.length ≤ i := by
      have := congrArg List.length hrest
      simp only [List.length_nil, List.length_drop] at this
      omega
    exact ⟨hbil, hgd, fun j hj => hunbeat j (by omega),
      fun j hj => hearly j hj⟩
  | cons s rest ih =>
    intro i bi bs hrest hbii hbil hgd hunbeat hearly
    have hil : i < full.length := by
      have := congrArg List.length hrest
      simp only [List.length_cons, List.length_drop] at this
      omega
    have hgetI : full[i]? = some s := by
      have h0 : (full.drop i)[0]? = full[i + 0]? := List.getElem?_drop full i 0
      rw [← hrest] at h0
      simpa using h0.symm
    have hgdI : full.getD i [] = s := by
      simp [List.getD_eq_getElem?_getD, hgetI]
    have hrest' : rest = full.drop (i + 1) := by
      have h1 : List.drop 1 (List.drop i full) = List.drop (i + 1) full :=
        List.drop_drop 1 i full
      rw [← hrest] at h1
      simpa using h1
    have hmem_getD : ∀ j, j < full.length → full.getD j [] ∈ full := by
      intro j hj
      rw [List.getD_eq_getElem?_getD, List.getElem?_eq_getElem hj]
      exact List.getElem_mem hj
    have hlen_getD : ∀ j, j < full.length → (full.getD j []).length = n :=
      fun j hj => hlen _ (hmem_getD j hj)
    have hlenBs : bs.length = n := by
      rw [← hgd]; exact hlen_getD bi hbil
    by_cases hbeat : lexGt s bs = true
    · -- the new candidate strictly beats the running best
      have hbeats_all : ∀ j, j < i → lexGt s (full.getD j []) = true := by
        intro j hj
        have hnb := hunbeat j hj
        have hlenj : (full.getD j []).length = bs.length := by
          rw [hlenBs]; exact hlen_getD j (by omega)
        rcases lexGt_total hlenj hnb with heq | hgt
        · rw [heq]; exact hbeat
        · exact lexGt_trans hbeat hgt
      have step : selOut bi bs i (s :: rest) = selOut i s (i + 1) rest := by
        simp [selOut, hbeat]
      rw [step]
      refine ih (i + 1) i s hrest' (by omega) hil hgdI ?_ ?_
      · intro j hj
        rcases Nat.lt_succ_iff_lt_or_eq.mp hj with hj' | hj'
        · exact lexGt_asymm (hbeats_all j hj')
        · subst hj'
          rw [hgdI]
          exact lexGt_irrefl s
      · intro j hj
        exact hbeats_all j hj
    · -- the running best stays
      have hbeat' : lexGt s bs = false := by
        cases h' : lexGt s bs with
        | false => rfl
        | true => exact absurd h' hbeat
      have step : selOut bi bs i (s :: rest) = selOut bi bs (i + 1) rest := by
        simp [selOut, hbeat']
      rw [step]
      refine ih (i + 1) bi bs hrest' (by omega) hbil hgd ?_ hearly
      intro j hj
      rcases Nat.lt_succ_iff_lt_or_eq.mp hj with hj' | hj'
      · exact hunbeat j hj'
      · subst hj'
        rw [hgdI]
        exact hbeat'

/-- The selected index of a nonempty candidate list: it exists, is in
range, no candidate strictly beats it, and it strictly beats every earlier
candidate (hence ties keep the earliest). -/
theorem selectBestIdx_spec (scores : List ScoreVec) (n : Nat)
    (hne : scores ≠ []) (hlen : ∀ s ∈ scores, s.length = n) :
    ∃ i, selectBestIdx scores = some i ∧ i < scores.length ∧
      (∀ j, j < scores.length →
        lexGt (scores.getD j []) (scores.getD i []) = false) ∧
      (∀ j, j < i → lexGt (scores.getD i []) (scores.getD j []) = true) := by
  cases scores with
  | nil => exact absurd rfl hne
  | cons s rest =>
    have hspec := selOut_spec (s :: rest) hlen rest 1 0 s (by simp)
      (by omega) (by simp) (by simp)
      (by
        intro j hj
        have hj0 : j = 0 := by omega
        subst hj0
        simpa using lexGt_irrefl s)
      (by intro j hj; omega)
    refine ⟨(selOut 0 s 1 rest).1, rfl, hspec.1, ?_, ?_⟩
    · intro j hj
      have := hspec.2.2.1 j hj
      rwa [← hspec.2.1] at this
    · intro j hj
      have := hspec.2.2.2 j hj
      rwa [← hspec.2.1] at this

theorem markRows_countP (i : Nat) :
    ∀ (cs : List (String × ScoreVec)) (j : Nat),
      (markRows i j cs).countP (fun r => r.is_best) =
        if j ≤ i ∧ i < j + cs.length then 1 else 0 := by
  intro cs
  induction cs with
  | nil =>
    intro j
    simp only [markRows, List.countP_nil, List.length_nil]
    split_ifs with h
    · omega
    · rfl
  | cons c cs ih =>
    intro j
    simp only [markRows, List.countP_cons, ih (j + 1), List.length_cons]
    by_cases hj : j = i <;> simp only [hj] <;> split_ifs <;> simp_all <;> omega

/-- Claim C1: for every node of a completed trial (a node whose candidate
list is nonempty), after selection exactly one Module Candidate Result row
of that node has `is_best=true`: a reader filtering the node's summary rows
on `is_best` finds exactly one row, so the `is_best` rows form a total
function from nodes to modules. -/
theorem node_isBest_unique (cands : List (String × ScoreVec))
    (h : cands ≠ []) :
    ((selectNode cands).filter (fun r => r.is_best)).length = 1 := by
  rw [← List.countP_eq_length_filter]
  cases cands with
  | nil => exact absurd rfl h
  | cons c cs =>
    have hi : selectBestIdx ((c :: cs).map Prod.snd) =
        some (selOut 0 c.2 1 (List.map Prod.snd cs)).1 := rfl
    have hlt := selectBestIdx_lt_length hi
    simp only [List.length_map, List.length_cons] at hlt
    show ((match selectBestIdx ((c :: cs).map Prod.snd) with
      | none => []
      | some i => markRows i 0 (c :: cs)).countP
        (fun r : CandidateRow => r.is_best)) = 1
    rw [hi]
    rw [markRows_countP]
    simp only [List.length_cons]
    rw [if_pos ⟨Nat.zero_le _, by omega⟩]

theorem node_isBest_unique_witness :
    ((selectNode [("bm25_porter", [1]), ("bm25_space", [1])]).filter
      (fun r => r.is_best)).length = 1 :=
  node_isBest_unique [("bm25_porter", [1]), ("bm25_space", [1])] (by simp)

/-- Claim C3: for every node's candidate score table (all score vectors
listing the same declared metrics, in `strategy.metrics` order), the
Strategy Selector picks an in-range index that maximizes the first metric
with ties broken by the following metrics recursively (no candidate is
lexicographically strictly greater), and a tie on all metrics keeps the
candidate enumerated earliest (the selected candidate strictly beats every
earlier one, so no earlier candidate ties with it).  Selection is a
deterministic function of the table; in particular two candidates both
scoring `retrieval_f1 = 1.0` resolve to the first (see the witness). -/
theorem selector_picks_lex_max_earliest (scores : List ScoreVec) (n : Nat)
    (hne : scores ≠ []) (hlen : ∀ s ∈ scores, s.length = n) :
    ∃ i, selectBestIdx scores = some i ∧ i < scores.length ∧
      (∀ j, j < scores.length →
        lexGt (scores.getD j []) (scores.getD i []) = false) ∧
      (∀ j, j < i → lexGt (scores.getD i []) (scores.getD j []) = true) :=
  selectBestIdx_spec scores n hne hlen

theorem selector_picks_lex_max_earliest_witness :
    selectBestIdx [[(1 : ℚ)], [1]] = some 0 ∧
      (∃ i, selectBestIdx [[(1 : ℚ)], [1]] = some i ∧
        i < ([[(1 : ℚ)], [1]] : List ScoreVec).length ∧
        (∀ j, j < ([[(1 : ℚ)], [1]] : List ScoreVec).length →
          lexGt (([[(1 : ℚ)], [1]] : List ScoreVec).getD j [])
            (([[(1 : ℚ)], [1]] : List ScoreVec).getD i []) = false) ∧
        (∀ j, j < i → lexGt (([[(1 : ℚ)], [1]] : List ScoreVec).getD i [])
          (([[(1 : ℚ)], [1]] : List ScoreVec).getD j []) = true)) :=
  ⟨by decide,
    selector_picks_lex_max_earliest [[(1 : ℚ)], [1]] 1 (by simp)
      (by intro s hs; simp at hs; simp [hs])⟩

/-! ### Restart determinism -/

theorem resumeUpstream_cons (inp : α) (x : Nat × α) (l : List (Nat × α)) :
    resumeUpstream inp (x :: l) = resumeUpstream x.2 l := by
  cases l with
  | nil => rfl
  | cons q qs =>
    simp only [resumeUpstream, List.getLast?_cons_cons]
    cases h : (q :: qs).getLast? with
    | none => simp [List.getLast?_eq_none_iff] at h
    | some iw => rfl

theorem runFirstK_inv :
    ∀ (k : Nat) (nodes : List (PNode α)) (inp : α) (per : List (Nat × α))
      (mid : α), runFirstK nodes inp k = some (per, mid) →
      per.length = k ∧ resumeUpstream inp per = mid := by
  intro k
  induction k with
  | zero =>
    intro nodes inp per mid h
    simp only [runFirstK, Option.some.injEq, Prod.mk.injEq] at h
    rcases h with ⟨h1, h2⟩
    constructor
    · rw [← h1]; rfl
    · rw [← h1, ← h2]; rfl
  | succ k ih =>
    intro nodes inp per mid h
    cases nodes with
    | nil => simp [runFirstK] at h
    | cons nd rest =>
      cases hrn : runNode nd inp with
      | none => simp [runFirstK, hrn] at h
      | some iout =>
        obtain ⟨i, out⟩ := iout
        cases hfk : runFirstK rest out k with
        | none => simp [runFirstK, hrn, hfk] at h
        | some pm =>
          obtain ⟨per2, mid2⟩ := pm
          simp only [runFirstK, hrn, hfk, Option.some.injEq,
            Prod.mk.injEq] at h
          rcases h with ⟨h1, h2⟩
          rcases ih rest out per2 mid2 hfk with ⟨hl, hr⟩
          subst h2
          rw [← h1]
          refine ⟨by simp [hl], ?_⟩
          rw [resumeUpstream_cons]
          exact hr

theorem runPipeline_decompose :
    ∀ (k : Nat) (nodes : List (PNode α)) (inp : α) (per : List (Nat × α))
      (mid : α), runFirstK nodes inp k = some (per, mid) →
      runPipeline nodes inp =
        match runPipeline (nodes.drop k) mid with
        | none => none
        | some selFin => some (per.map Prod.fst ++ selFin.1, selFin.2) := by
  intro k
  induction k with
  | zero =>
    intro nodes inp per mid h
    simp only [runFirstK, Option.some.injEq, Prod.mk.injEq] at h
    rcases h with ⟨h1, h2⟩
    rw [← h1, ← h2]
    simp only [List.drop_zero, List.map_nil, List.nil_append]
    cases hrp : runPipeline nodes inp with
    | none => rfl
    | some sf => rfl
  | succ k ih =>
    intro nodes inp per mid h
    cases nodes with
    | nil => simp [runFirstK] at h
    | cons nd rest =>
      cases hrn : runNode nd inp with
      | none => simp [runFirstK, hrn] at h
      | some iout =>
        obtain ⟨i, out⟩ := iout
        cases hfk : runFirstK rest out k with
        | none => simp [runFirstK, hrn, hfk] at h
        | some pm =>
          obtain ⟨per2, mid2⟩ := pm
          simp only [runFirstK, hrn, hfk, Option.some.injEq,
            Prod.mk.injEq] at h
          rcases h with ⟨h1, h2⟩
          subst h2
          rw [← h1]
          have hdrop : (nd :: rest).drop (k + 1) = rest.drop k := by
            simp [List.drop_succ_cons]
          rw [hdrop]
          simp only [runPipeline, hrn]
          rw [ih rest out per2 mid2 hfk]
          cases hrp : runPipeline (rest.drop k) mid2 with
          | none => rfl
          | some sf => simp

/-- Claim C2: determinism under restart.  If an execution is interrupted
after node `k` completes (the Trial State Store holds the persisted winners
`per` of the first `k` nodes), the Restart Engine — which skips the `k`
persisted nodes, reuses the last persisted winner's output as upstream
input and never re-executes or re-scores the skipped nodes — produces
exactly the same final `is_best` winner selection (and final output) for
every node as the single uninterrupted execution over the same inputs. -/
theorem restart_reproduces_run (nodes : List (PNode α)) (inp : α) (k : Nat)
    (per : List (Nat × α)) (mid : α)
    (h : runFirstK nodes inp k = some (per, mid)) :
    restartRun nodes inp per = runPipeline nodes inp := by
  rcases runFirstK_inv k nodes inp per mid h with ⟨hlen, hres⟩
  rw [restartRun, hlen, hres, runPipeline_decompose k nodes inp per mid h]

theorem restart_reproduces_run_witness :
    restartRun [(⟨fun x => [(x + 1, [1]), (x + 2, [2])]⟩ : PNode Nat),
        ⟨fun x => [(x * 2, [5])]⟩] 0 [(1, 2)] =
      runPipeline [(⟨fun x => [(x + 1, [1]), (x + 2, [2])]⟩ : PNode Nat),
        ⟨fun x => [(x * 2, [5])]⟩] 0 :=
  restart_reproduces_run _ 0 1 [(1, 2)] 2 (by decide)

/-! ### Reciprocal Rank Fusion facts -/

theorem dedupAcc_congr :
    ∀ (l s1 s2 : List String), (∀ x, x ∈ s1 ↔ x ∈ s2) →
      dedupAcc s1 l = dedupAcc s2 l := by
  intro l
  induction l with
  | nil => intro s1 s2 _; rfl
  | cons a as ih =>
    intro s1 s2 hs
    simp only [dedupAcc]
    by_cases h : a ∈ s1
    · rw [if_pos h, if_pos ((hs a).mp h)]
      exact ih s1 s2 hs
    · rw [if_neg h, if_neg (fun hc => h ((hs a).mpr hc))]
      rw [ih (a :: s1) (a :: s2) (by intro x; simp [hs x])]

theorem dedupAcc_append :
    ∀ (xs ys seen : List String),
      dedupAcc seen (xs ++ ys) = dedupAcc seen xs ++ dedupAcc (xs ++ seen) ys := by
  intro xs
  induction xs with
  | nil => intro ys seen; simp [dedupAcc]
  | cons a as ih =>
    intro ys seen
    simp only [List.cons_append, dedupAcc, List.append_eq]
    by_cases h : a ∈ seen
    · rw [if_pos h, if_pos h, ih]
      have hcg : dedupAcc (as ++ seen) ys = dedupAcc (a :: (as ++ seen)) ys := by
        apply dedupAcc_congr
        intro x
        simp only [List.mem_append, List.mem_cons]
        constructor
        · intro hx; tauto
        · rintro (rfl | hx | hx)
          · exact Or.inr h
          · exact Or.inl hx
          · exact Or.inr hx
      rw [hcg]
    · rw [if_neg h, if_neg h]
      rw [ih ys (a :: seen)]
      have hcg : dedupAcc (as ++ a :: seen) ys = dedupAcc (a :: (as ++ seen)) ys := by
        apply dedupAcc_congr
        intro x
        simp only [List.mem_append, List.mem_cons]
        tauto
      rw [hcg]
      simp [List.cons_append]

theorem dedupAcc_nil_of_subset :
    ∀ (l seen : List String), (∀ x ∈ l, x ∈ seen) → dedupAcc seen l = [] := by
  intro l
  induction l with
  | nil => intro seen _; rfl
  | cons a as ih =>
    intro seen hsub
    simp only [dedupAcc, if_pos (hsub a (by simp))]
    exact ih seen (fun x hx => hsub x (by simp [hx]))

theorem dedupAcc_eq_self :
    ∀ (l seen : List String), l.Nodup → (∀ x ∈ l, x ∉ seen) →
      dedupAcc seen l = l := by
  intro l
  induction l with
  | nil => intro seen _ _; rfl
  | cons a as ih =>
    intro seen hnd hdis
    rcases List.nodup_cons.mp hnd with ⟨hna, hnd'⟩
    simp only [dedupAcc, if_neg (hdis a (by simp))]
    rw [ih (a :: seen) hnd']
    intro x hx
    simp only [List.mem_cons]
    rintro (rfl | hxs)
    · exact hna hx
    · exact hdis x (by simp [hx]) hxs

theorem candidateDocs_pair_self (L : List String) (hnd : L.Nodup) :
    candidateDocs [L, L] = L := by
  show dedupAcc [] ([L, L] : List (List String)).flatten = L
  have hfl : ([L, L] : List (List String)).flatten = L ++ L := by simp
  rw [hfl, dedupAcc_append, dedupAcc_eq_self L [] hnd (by simp),
    dedupAcc_nil_of_subset L (L ++ []) (by intro x hx; simp [hx])]
  simp

theorem rankIn_get :
    ∀ (L : List String), L.Nodup → ∀ (i : Nat) (h : i < L.length),
      rankIn L (L.get ⟨i, h⟩) = some (i + 1) := by
  intro L
  induction L with
  | nil => intro _ i h; simp at h
  | cons a as ih =>
    intro hnd i h
    cases i with
    | zero => simp [rankIn]
    | succ j =>
      have hj : j < as.length := by simpa using h
      have hd : (a :: as).get ⟨j + 1, h⟩ = as.get ⟨j, hj⟩ := rfl
      rw [hd]
      have hne : as.get ⟨j, hj⟩ ≠ a := by
        intro hc
        exact (List.nodup_cons.mp hnd).1 (hc ▸ List.get_mem as j hj)
      simp only [rankIn, if_neg hne]
      rw [ih (List.nodup_cons.mp hnd).2 j hj]
      rfl

theorem rrfScoreOf_pair (k : ℚ) (L : List String) (d : String) (r : Nat)
    (hr : rankIn L d = some r) :
    rrfScoreOf k [L, L] d = 1 / (k + r) + 1 / (k + r) := by
  simp [rrfScoreOf, hr]

/-- Claim C5: Reciprocal Rank Fusion applied to two identical copies of a
duplicate-free ranking `L` (with a nonnegative constant `k`) produces a
fused ranking in exactly the same document order as `L`: the fused scores
are a monotone rescaling of the ranks, so fusion of identical inputs is
order-preserving (up to the `top_k` truncation). -/
theorem rrf_identical_order_preserving (L : List String) (k : ℚ) (topk : Nat)
    (hk : 0 ≤ k) (hnd : L.Nodup) :
    (rrfFuse k topk [L, L]).map Prod.fst = L.take topk := by
  show ((sortLe (fun a b => decide (b.2 ≤ a.2))
    ((candidateDocs [L, L]).map
      (fun d => (d, rrfScoreOf k [L, L] d)))).take topk).map Prod.fst = _
  rw [candidateDocs_pair_self L hnd]
  have hsorted : (L.map (fun d => (d, rrfScoreOf k [L, L] d))).Pairwise
      (fun x y => (fun a b : String × ℚ => decide (b.2 ≤ a.2)) x y = true) := by
    rw [List.pairwise_iff_get]
    intro i j hij
    simp only [List.get_map, decide_eq_true_eq]
    have hiL : (i : Nat) < L.length := by
      have := i.isLt; simpa using this
    have hjL : (j : Nat) < L.length := by
      have := j.isLt; simpa using this
    rw [rrfScoreOf_pair k L _ _ (rankIn_get L hnd i hiL),
      rrfScoreOf_pair k L _ _ (rankIn_get L hnd j hjL)]
    have hpos : (0 : ℚ) < k + ((i : Nat) + 1 : Nat) := by
      push_cast
      positivity
    have hle : (k + ((i : Nat) + 1 : Nat) : ℚ) ≤ k + ((j : Nat) + 1 : Nat) := by
      push_cast
      have : ((i : Nat) : ℚ) ≤ ((j : Nat) : ℚ) := by
        exact_mod_cast Nat.le_of_lt hij
      linarith
    have h1 := one_div_le_one_div_of_le hpos hle
    exact add_le_add h1 h1
  rw [sortLe_eq_self _ _ hsorted]
  rw [← List.map_take]
  simp [Function.comp_def]

theorem rrf_identical_order_preserving_witness :
    (0 : ℚ) ≤ 1 ∧ (["a", "b"] : List String).Nodup ∧
      (rrfFuse 1 2 [["a", "b"], ["a", "b"]]).map Prod.fst =
        (["a", "b"] : List String).take 2 :=
  ⟨by norm_num, by decide,
    rrf_identical_order_preserving ["a", "b"] 1 2 (by norm_num) (by decide)⟩

/-- Claim C4: Reciprocal Rank Fusion assigns each document the combined
score `sum over input lists of 1 / (k + rank_in_list)` (omitting the term
for a list the document is absent from), re-sorts descending and truncates
to `top_k` with ties broken by first-input-list order.  For input lists
`[d1,d2,d3]` and `[d3,d1,d2]` with `k=1` the fused ranking orders `d1`
above `d3` above `d2`, with exactly the scores given by the formula. -/
theorem rrf_example_d1_d3_d2 :
    rrfScoreOf 1 [["d1", "d2", "d3"], ["d3", "d1", "d2"]] "d1" =
        1 / (1 + 1) + 1 / (1 + 2) ∧
      rrfScoreOf 1 [["d1", "d2", "d3"], ["d3", "d1", "d2"]] "d2" =
        1 / (1 + 2) + 1 / (1 + 3) ∧
      rrfScoreOf 1 [["d1", "d2", "d3"], ["d3", "d1", "d2"]] "d3" =
        1 / (1 + 3) + 1 / (1 + 1) ∧
      rrfFuse 1 3 [["d1", "d2", "d3"], ["d3", "d1", "d2"]] =
        [("d1", 5 / 6), ("d3", 3 / 4), ("d2", 7 / 12)] := by
  refine ⟨?_, ?_, ?_, ?_⟩
  · simp +decide only [rrfScoreOf, rankIn, List.map, List.sum, List.foldr,
      Option.map]
    norm_num
  · simp +decide only [rrfScoreOf, rankIn, List.map, List.sum, List.foldr,
      Option.map]
    norm_num
  · simp +decide only [rrfScoreOf, rankIn, List.map, List.sum, List.foldr,
      Option.map]
    norm_num
  · simp +decide only [rrfFuse, candidateDocs, dedupAcc, rankIn, rrfScoreOf,
      sortLe, insertLe, List.flatten, List.map, List.sum, List.foldr,
      List.append, Option.map]
    norm_num [insertLe, List.take]

/-! ### Per-item retry facts -/

theorem itemEval_ok :
    ∀ (n t : Nat) (attempt : Nat → Except String ℚ) (worst : ℚ),
      ∃ v, itemEval attempt t n worst = .ok v := by
  intro n
  induction n with
  | zero => intro t attempt worst; exact ⟨worst, rfl⟩
  | succ n ih =>
    intro t attempt worst
    cases h : attempt t with
    | ok v => exact ⟨v, by simp [itemEval, h]⟩
    | error e =>
      rcases ih (t + 1) attempt worst with ⟨v, hv⟩
      exact ⟨v, by simp only [itemEval, h]; exact hv⟩

theorem itemEval_all_fail :
    ∀ (n t : Nat) (attempt : Nat → Except String ℚ) (worst : ℚ),
      (∀ u, t ≤ u → u < t + n → ∃ e, attempt u = .error e) →
      itemEval attempt t n worst = .ok worst := by
  intro n
  induction n with
  | zero => intro t attempt worst _; rfl
  | succ n ih =>
    intro t attempt worst hfail
    rcases hfail t (le_refl t) (by omega) with ⟨e, he⟩
    simp only [itemEval, he]
    exact ih (t + 1) attempt worst (fun u h1 h2 => hfail u (by omega) (by omega))

theorem itemEval_first_success :
    ∀ (n t t0 : Nat) (attempt : Nat → Except String ℚ) (worst : ℚ) (v : ℚ),
      t ≤ t0 → t0 < t + n →
      (∀ u, t ≤ u → u < t0 → ∃ e, attempt u = .error e) →
      attempt t0 = .ok v →
      itemEval attempt t n worst = .ok v := by
  intro n
  induction n with
  | zero => intro t t0 attempt worst v h1 h2 _ _; exact absurd h1 (by omega)
  | succ n ih =>
    intro t t0 attempt worst v hle hlt hfail hok
    by_cases h : t0 = t
    · subst h
      simp only [itemEval, hok]
    · rcases hfail t (le_refl t) (by omega) with ⟨e, he⟩
      simp only [itemEval, he]
      exact ih (t + 1) t0 attempt worst v (by omega) (by omega)
        (fun u h1 h2 => hfail u (by omega) h2) hok

theorem evalModuleScores_ok (maxTries : Nat) (worst : ℚ) :
    ∀ (items : List (Nat → Except String ℚ)),
      ∃ l, evalModuleScores items maxTries worst = .ok l ∧
        l.length = items.length ∧
        (∀ j (hj : j < items.length) (hl : j < l.length),
          itemEval (items.get ⟨j, hj⟩) 0 maxTries worst =
            .ok (l.get ⟨j, hl⟩)) := by
  intro items
  induction items with
  | nil =>
    refine ⟨[], rfl, rfl, ?_⟩
    intro j hj
    simp at hj
  | cons it its ih =>
    rcases ih with ⟨l, hl, hlen, hcorr⟩
    rcases itemEval_ok maxTries 0 it worst with ⟨v, hv⟩
    refine ⟨v :: l, ?_, by simp [hlen], ?_⟩
    · show (match itemEval it 0 maxTries worst,
          evalModuleScores its maxTries worst with
        | .ok v, .ok vs => Except.ok (v :: vs)
        | .error e, _ => Except.error e
        | .ok _, .error e => Except.error e) = .ok (v :: l)
      rw [hv, hl]
    · intro j hj hl2
      cases j with
      | zero => exact hv
      | succ j2 => exact hcorr j2 (by simpa using hj) (by simpa using hl2)

/-- Claim C6: a failure confined to a single QA item of a single module
never aborts the module's evaluation or propagates as an error: the module
evaluation always returns `ok` with one score per item; an item whose
attempts all fail within the retry bound is scored as the metric's worst
value for that item only, while an item whose evaluation first succeeds at
some attempt within the bound keeps that successful score. -/
theorem per_item_failure_isolated (items : List (Nat → Except String ℚ))
    (maxTries : Nat) (worst : ℚ) :
    ∃ l, evalModuleScores items maxTries worst = .ok l ∧
      l.length = items.length ∧
      (∀ j (hj : j < items.length) (hl : j < l.length),
        (∀ t, t < maxTries → ∃ e, items.get ⟨j, hj⟩ t = .error e) →
        l.get ⟨j, hl⟩ = worst) ∧
      (∀ j (hj : j < items.length) (hl : j < l.length) (t : Nat) (v : ℚ),
        t < maxTries →
        (∀ u, u < t → ∃ e, items.get ⟨j, hj⟩ u = .error e) →
        items.get ⟨j, hj⟩ t = .ok v →
        l.get ⟨j, hl⟩ = v) := by
  rcases evalModuleScores_ok maxTries worst items with ⟨l, hl, hlen, hcorr⟩
  refine ⟨l, hl, hlen, ?_, ?_⟩
  · intro j hj hl2 hfail
    have h1 := hcorr j hj hl2
    have h2 := itemEval_all_fail maxTries 0 (items.get ⟨j, hj⟩) worst
      (fun u _ hu => hfail u (by omega))
    rw [h1] at h2
    exact (Except.ok.injEq _ _).mp h2
  · intro j hj hl2 t v ht hfail hok
    have h1 := hcorr j hj hl2
    have h2 := itemEval_first_success maxTries 0 t (items.get ⟨j, hj⟩) worst v
      (by omega) (by omega) (fun u _ hu => hfail u hu) hok
    rw [h1] at h2
    exact (Except.ok.injEq _ _).mp h2

theorem per_item_failure_isolated_witness :
    ∃ l, evalModuleScores [fun _ => .error "boom", fun _ => .ok 1] 3 0 = .ok l ∧
      l.length = ([fun _ => .error "boom", fun _ => .ok 1] :
        List (Nat → Except String ℚ)).length ∧
      (∀ j (hj : j < ([fun _ => .error "boom", fun _ => .ok 1] :
          List (Nat → Except String ℚ)).length) (hl : j < l.length),
        (∀ t, t < 3 → ∃ e, ([fun _ => .error "boom", fun _ => .ok 1] :
          List (Nat → Except String ℚ)).get ⟨j, hj⟩ t = .error e) →
        l.get ⟨j, hl⟩ = 0) ∧
      (∀ j (hj : j < ([fun _ => .error "boom", fun _ => .ok 1] :
          List (Nat → Except String ℚ)).length) (hl : j < l.length) (t : Nat)
          (v : ℚ), t < 3 →
        (∀ u, u < t → ∃ e, ([fun _ => .error "boom", fun _ => .ok 1] :
          List (Nat → Except String ℚ)).get ⟨j, hj⟩ u = .error e) →
        ([fun _ => .error "boom", fun _ => .ok 1] :
          List (Nat → Except String ℚ)).get ⟨j, hj⟩ t = .ok v →
        l.get ⟨j, hl⟩ = v) :=
  per_item_failure_isolated [fun _ => .error "boom", fun _ => .ok 1] 3 0

/-! ### Persisted trial layout facts -/

theorem digitChar_isDigit (d : Nat) (hd : d < 10) :
    (digitChar d).isDigit = true := by
  interval_cases d <;> decide

theorem natRepr_isDigitName (n : Nat) : isDigitName (natRepr n) = true := by
  by_cases h : n = 0
  · subst h
    decide
  · simp only [natRepr, if_neg h, isDigitName]
    have hne : ((Nat.digits 10 n).map digitChar).reverse ≠ [] := by
      simp only [ne_eq, List.reverse_eq_nil_iff, List.map_eq_nil_iff]
      exact Nat.digits_ne_nil_iff_ne_zero.mpr h
    have hall : (((Nat.digits 10 n).map digitChar).reverse).all Char.isDigit
        = true := by
      rw [List.all_eq_true]
      intro x hx
      rw [List.mem_reverse, List.mem_map] at hx
      rcases hx with ⟨d, hd, rfl⟩
      exact digitChar_isDigit d (Nat.digits_lt_base (by norm_num) hd)
    rw [hall]
    simp [hne]

theorem strEndsWith_append (s t : String) : strEndsWith (s ++ t) t = true := by
  simp only [strEndsWith, String.data_append, decide_eq_true_eq]
  exact List.suffix_append s.data t.data

/-- Claim C7: every completed trial persisted in the hierarchical layout —
a digit-named trial directory holding a trial-root `summary.csv`, one
`<name>_node_line` subdirectory per node-line, one node-type subdirectory
per node with its `summary.csv` and one result file per module candidate —
is fully discovered by a reader that globs digit-named trial directories,
`*_node_line` subdirectories, node-type subdirectories and `summary.csv`
files: that reader finds the trial-root summary and the summary of every
node of every node-line. -/
theorem trial_layout_reader_finds_all (t : TrialFS) (nl : NodeLineDir)
    (nd : NodeDir) (hnl : nl ∈ t.nodeLines) (hnd : nd ∈ nl.nodes) :
    rootSummaryPath t ∈ globSummaries (persistTrial t) ∧
      nodeSummaryPath t nl nd ∈ globSummaries (persistTrial t) := by
  constructor
  · apply List.mem_filter.mpr
    constructor
    · exact List.mem_cons_self _ _
    · simp [rootSummaryPath, matchesRootSummary, natRepr_isDigitName]
  · apply List.mem_filter.mpr
    constructor
    · apply List.mem_cons_of_mem
      rw [List.mem_flatMap]
      refine ⟨nl, hnl, ?_⟩
      rw [List.mem_flatMap]
      exact ⟨nd, hnd, List.mem_cons_self _ _⟩
    · simp [nodeSummaryPath, matchesNodeSummary, natRepr_isDigitName,
        strEndsWith_append]

theorem trial_layout_reader_finds_all_witness :
    rootSummaryPath ⟨0, [⟨"retrieve", [⟨"lexical_retrieval", ["0.parquet"]⟩]⟩]⟩ ∈
        globSummaries (persistTrial
          ⟨0, [⟨"retrieve", [⟨"lexical_retrieval", ["0.parquet"]⟩]⟩]⟩) ∧
      nodeSummaryPath ⟨0, [⟨"retrieve", [⟨"lexical_retrieval", ["0.parquet"]⟩]⟩]⟩
          ⟨"retrieve", [⟨"lexical_retrieval", ["0.parquet"]⟩]⟩
          ⟨"lexical_retrieval", ["0.parquet"]⟩ ∈
        globSummaries (persistTrial
          ⟨0, [⟨"retrieve", [⟨"lexical_retrieval", ["0.parquet"]⟩]⟩]⟩) :=
  trial_layout_reader_finds_all
    ⟨0, [⟨"retrieve", [⟨"lexical_retrieval", ["0.parquet"]⟩]⟩]⟩
    ⟨"retrieve", [⟨"lexical_retrieval", ["0.parquet"]⟩]⟩
    ⟨"lexical_retrieval", ["0.parquet"]⟩ (by simp) (by simp)

/-! ### `executar_avaliacao` guard behaviour -/

theorem config_implies_project (key : String) (p : String)
    (h : CONFIG_FILES.lookup key = some p) :
    ∃ d, PROJECT_DIRS.lookup key = some d := by
  by_cases h1 : key = "simples"
  · subst h1; exact ⟨_, rfl⟩
  · by_cases h2 : key = "local"
    · subst h2; exact ⟨_, rfl⟩
    · by_cases h3 : key = "bm25_compare"
      · subst h3; exact ⟨_, rfl⟩
      · by_cases h4 : key = "openai"
        · subst h4; exact ⟨_, rfl⟩
        · exfalso
          have hb1 : (key == "simples") = false := beq_eq_false_iff_ne.mpr h1
          have hb2 : (key == "local") = false := beq_eq_false_iff_ne.mpr h2
          have hb3 : (key == "bm25_compare") = false :=
            beq_eq_false_iff_ne.mpr h3
          have hb4 : (key == "openai") = false := beq_eq_false_iff_ne.mpr h4
          simp [CONFIG_FILES, List.lookup, hb1, hb2, hb3, hb4] at h

/-- Claim C8: `executar_avaliacao` returns `None` without constructing an
`Evaluator` or starting any trial whenever the key is not in
`CONFIG_FILES`, the configuration file does not exist, or (when
`skip_deps_check` is false) `verificar_dependencias` reports a missing
dependency for the key's dependency type; only when all checks pass does it
start the trial and return the project directory path (always a defined
entry of `PROJECT_DIRS`). -/
theorem executar_avaliacao_guards (env : DepsEnv) (key : String)
    (skip : Bool) :
    ((executar_avaliacao env key skip).trialStarted = true ↔
      ∃ p, CONFIG_FILES.lookup key = some p ∧ env.fileExists p = true ∧
        (skip = true ∨ verificar_dependencias env (depsTypeOf key) = true)) ∧
    (executar_avaliacao env key skip).evaluatorCreated =
      (executar_avaliacao env key skip).trialStarted ∧
    ((executar_avaliacao env key skip).trialStarted = true →
      (executar_avaliacao env key skip).retorno = PROJECT_DIRS.lookup key ∧
        ∃ d, (executar_avaliacao env key skip).retorno = some d) ∧
    ((executar_avaliacao env key skip).trialStarted = false →
      (executar_avaliacao env key skip).retorno = none) := by
  cases hcf : CONFIG_FILES.lookup key with
  | none =>
    have hres : executar_avaliacao env key skip = ⟨none, false, false⟩ := by
      simp [executar_avaliacao, hcf]
    rw [hres]
    refine ⟨?_, rfl, ?_, ?_⟩
    · simp [hcf]
    · intro h; simp at h
    · intro _; rfl
  | some p =>
    by_cases hex : env.fileExists p = true
    · by_cases hdeps : skip = false ∧
          verificar_dependencias env (depsTypeOf key) = false
      · have hres : executar_avaliacao env key skip = ⟨none, false, false⟩ := by
          simp [executar_avaliacao, hcf, hex, hdeps.1, hdeps.2]
        rw [hres]
        refine ⟨?_, rfl, ?_, ?_⟩
        · constructor
          · intro h; simp at h
          · rintro ⟨q, hq, hqex, hqok⟩
            exfalso
            rcases hqok with hsk | hver
            · rw [hdeps.1] at hsk; simp at hsk
            · rw [hdeps.2] at hver; simp at hver
        · intro h; simp at h
        · intro _; rfl
      · have hpass : skip = true ∨
            verificar_dependencias env (depsTypeOf key) = true := by
          rcases Bool.eq_false_or_eq_true skip with hs | hs
          · exact Or.inl hs
          · rcases Bool.eq_false_or_eq_true
                (verificar_dependencias env (depsTypeOf key)) with hv | hv
            · exact Or.inr hv
            · exact absurd ⟨hs, hv⟩ hdeps
        have hres : executar_avaliacao env key skip =
            ⟨PROJECT_DIRS.lookup key, true, true⟩ := by
          rcases hpass with hs | hv
          · simp [executar_avaliacao, hcf, hex, hs]
          · simp [executar_avaliacao, hcf, hex, hv]
        rw [hres]
        refine ⟨?_, rfl, ?_, ?_⟩
        · simp only [true_iff]
          exact ⟨p, rfl, hex, hpass⟩
        · intro _
          exact ⟨rfl, config_implies_project key p hcf⟩
        · intro h; simp at h
    · have hexf : env.fileExists p = false := by
        rcases Bool.eq_false_or_eq_true (env.fileExists p) with hv | hv
        · exact absurd hv hex
        · exact hv
      have hres : executar_avaliacao env key skip = ⟨none, false, false⟩ := by
        simp [executar_avaliacao, hcf, hexf]
      rw [hres]
      refine ⟨?_, rfl, ?_, ?_⟩
      · constructor
        · intro h; simp at h
        · rintro ⟨q, hq, hqex, _⟩
          exfalso
          have hpq : p = q := by simpa using hq
          subst hpq
          rw [hexf] at hqex
          simp at hqex
      · intro h; simp at h
      · intro _; rfl

theorem executar_avaliacao_guards_witness :
    (((executar_avaliacao ⟨true, true, true, true, fun _ => true⟩ "simples"
        false).trialStarted = true ↔
      ∃ p, CONFIG_FILES.lookup "simples" = some p ∧
        (fun _ => true : String → Bool) p = true ∧
        (false = true ∨ verificar_dependencias
          ⟨true, true, true, true, fun _ => true⟩
          (depsTypeOf "simples") = true)) ∧
    (executar_avaliacao ⟨true, true, true, true, fun _ => true⟩ "simples"
        false).evaluatorCreated =
      (executar_avaliacao ⟨true, true, true, true, fun _ => true⟩ "simples"
        false).trialStarted ∧
    ((executar_avaliacao ⟨true, true, true, true, fun _ => true⟩ "simples"
        false).trialStarted = true →
      (executar_avaliacao ⟨true, true, true, true, fun _ => true⟩ "simples"
          false).retorno = PROJECT_DIRS.lookup "simples" ∧
        ∃ d, (executar_avaliacao ⟨true, true, true, true, fun _ => true⟩
          "simples" false).retorno = some d) ∧
    ((executar_avaliacao ⟨true, true, true, true, fun _ => true⟩ "simples"
        false).trialStarted = false →
      (executar_avaliacao ⟨true, true, true, true, fun _ => true⟩ "simples"
        false).retorno = none)) :=
  executar_avaliacao_guards ⟨true, true, true, true, fun _ => true⟩
    "simples" false

/-! ### `analisar_resultados` scan facts -/

theorem strLe_total (a b : String) : strLe a b = true ∨ strLe b a = true := by
  simp only [strLe, decide_eq_true_eq]
  exact le_total a b

theorem strLe_trans (a b c : String) (h1 : strLe a b = true)
    (h2 : strLe b c = true) : strLe a c = true := by
  simp only [strLe, decide_eq_true_eq] at h1 h2 ⊢
  exact le_trans h1 h2

theorem map_fst_filterMap_pair (g : String → Option String) :
    ∀ (l : List String),
      (l.filterMap (fun proj =>
        match g proj with
        | none => none
        | some t => some (proj, t))).map Prod.fst =
      l.filter (fun proj => (g proj).isSome) := by
  intro l
  induction l with
  | nil => rfl
  | cons a as ih =>
    cases hg : g a with
    | none => simp [List.filterMap_cons, List.filter_cons, hg, ih]
    | some t => simp [List.filterMap_cons, List.filter_cons, hg, ih]

/-- Claim C9: with `project_dir=None`, `analisar_resultados` scans the
`projeto_*` entries of the tutorial directory and, for each project having
at least one trial entry matching `[0-9]*`, analyses exactly the trial
with the greatest sorted name; projects with no trial entries are skipped
silently, and each project is analysed at most once.  (The function is a
pure read of the directory listing: the embedding consumes the filesystem
and produces only the analysed pairs.) -/
theorem analisar_scan_spec (fs : TutorialFS)
    (hN : fs.tutorialEntries.Nodup) :
    (∀ p t, (p, t) ∈ analisar_projetos fs ↔
      (p ∈ fs.tutorialEntries ∧ matchProjetoGlob p = true ∧
        t ∈ fs.projectEntries p ∧ matchTrialGlob t = true ∧
        ∀ u ∈ fs.projectEntries p, matchTrialGlob u = true → u ≤ t)) ∧
    ((analisar_projetos fs).map Prod.fst).Nodup := by
  constructor
  · intro p t
    constructor
    · intro hmem
      rw [analisar_projetos, List.mem_filterMap] at hmem
      rcases hmem with ⟨proj, hproj, hf⟩
      cases hgl : (sortedStr ((fs.projectEntries proj).filter
          matchTrialGlob)).getLast? with
      | none => rw [hgl] at hf; simp at hf
      | some t0 =>
        rw [hgl] at hf
        simp only [Option.some.injEq, Prod.mk.injEq] at hf
        rcases hf with ⟨rfl, rfl⟩
        have hpm : proj ∈ fs.tutorialEntries.filter matchProjetoGlob :=
          (mem_sortLe _ _ proj).mp hproj
        rcases List.mem_filter.mp hpm with ⟨hpe, hpg⟩
        have ht0 : t0 ∈ (fs.projectEntries proj).filter matchTrialGlob :=
          (mem_sortLe _ _ t0).mp (mem_of_getLast?_eq hgl)
        rcases List.mem_filter.mp ht0 with ⟨hte, htg⟩
        refine ⟨hpe, hpg, hte, htg, ?_⟩
        intro u hu hug
        have humem : u ∈ (fs.projectEntries proj).filter matchTrialGlob :=
          List.mem_filter.mpr ⟨hu, hug⟩
        have := sortLe_getLast_max strLe strLe_total strLe_trans
          ((fs.projectEntries proj).filter matchTrialGlob) t0 hgl u humem
        simpa [strLe] using this
    · rintro ⟨hpe, hpg, hte, htg, hmax⟩
      rw [analisar_projetos, List.mem_filterMap]
      refine ⟨p, (mem_sortLe _ _ p).mpr (List.mem_filter.mpr ⟨hpe, hpg⟩), ?_⟩
      have htmem : t ∈ sortedStr ((fs.projectEntries p).filter matchTrialGlob) :=
        (mem_sortLe _ _ t).mpr (List.mem_filter.mpr ⟨hte, htg⟩)
      cases hgl : (sortedStr ((fs.projectEntries p).filter
          matchTrialGlob)).getLast? with
      | none =>
        exfalso
        rw [List.getLast?_eq_none_iff] at hgl
        rw [hgl] at htmem
        exact absurd htmem (List.not_mem_nil t)
      | some t0 =>
        have ht0 : t0 ∈ (fs.projectEntries p).filter matchTrialGlob :=
          (mem_sortLe _ _ t0).mp (mem_of_getLast?_eq hgl)
        rcases List.mem_filter.mp ht0 with ⟨ht0e, ht0g⟩
        have h1 : t ≤ t0 := by
          have := sortLe_getLast_max strLe strLe_total strLe_trans
            ((fs.projectEntries p).filter matchTrialGlob) t0 hgl t
            (List.mem_filter.mpr ⟨hte, htg⟩)
          simpa [strLe] using this
        have h2 : t0 ≤ t := hmax t0 ht0e ht0g
        have : t0 = t := le_antisymm h2 h1
        rw [this]
  · rw [analisar_projetos]
    rw [map_fst_filterMap_pair
      (fun proj => (sortedStr ((fs.projectEntries proj).filter
        matchTrialGlob)).getLast?)]
    apply List.Nodup.filter
    exact (sortLe_perm strLe _).nodup_iff.mpr (hN.filter matchProjetoGlob)

theorem analisar_scan_spec_witness :
    ((∀ p t, (p, t) ∈ analisar_projetos
        ⟨["projeto_simples", "qa.parquet"],
          fun p => if p = "projeto_simples" then ["0", "1"] else []⟩ ↔
      (p ∈ ["projeto_simples", "qa.parquet"] ∧ matchProjetoGlob p = true ∧
        t ∈ (if p = "projeto_simples" then ["0", "1"] else []) ∧
        matchTrialGlob t = true ∧
        ∀ u ∈ (if p = "projeto_simples" then ["0", "1"] else []),
          matchTrialGlob u = true → u ≤ t)) ∧
    ((analisar_projetos
        ⟨["projeto_simples", "qa.parquet"],
          fun p => if p = "projeto_simples" then ["0", "1"] else []⟩).map
      Prod.fst).Nodup) :=
  analisar_scan_spec
    ⟨["projeto_simples", "qa.parquet"],
      fun p => if p = "projeto_simples" then ["0", "1"] else []⟩
    (by decide)

/-! ### `comparar_metodos` facts -/

theorem mrowLe_total (a b : MRow) :
    (fun a b : MRow => decide (b.f1 ≤ a.f1)) a b = true ∨
      (fun a b : MRow => decide (b.f1 ≤ a.f1)) b a = true := by
  simp only [decide_eq_true_eq]
  exact le_total b.f1 a.f1

theorem mrowLe_trans (a b c : MRow)
    (h1 : (fun a b : MRow => decide (b.f1 ≤ a.f1)) a b = true)
    (h2 : (fun a b : MRow => decide (b.f1 ≤ a.f1)) b c = true) :
    (fun a b : MRow => decide (b.f1 ≤ a.f1)) a c = true := by
  simp only [decide_eq_true_eq] at h1 h2 ⊢
  exact le_trans h2 h1

/-- Claim C10: `comparar_metodos` reports as best retrieval method the
collected row with the highest `retrieval_f1` among the `is_best` rows of
the `lexical_retrieval`, `semantic_retrieval` and `hybrid_retrieval`
summaries (one row per method, metric columns absent from a summary read as
0), sorts by F1 descending and declares the first row the winner, choosing
the recommendation text solely from the winner's method name; it reports
nothing exactly when no summary contributed a row. -/
theorem comparar_metodos_spec (summaries : String → Option (List SRow)) :
    (comparar_metodos summaries = none ↔
      coletarResultados summaries = []) ∧
    (∀ w rec, comparar_metodos summaries = some (w, rec) →
      w ∈ coletarResultados summaries ∧
      (∀ r ∈ coletarResultados summaries, r.f1 ≤ w.f1) ∧
      rec = recomendacao w.metodo) ∧
    (∀ (r : SRow) (m : String), r.metrics.lookup m = none →
      getMetric r m = 0) := by
  refine ⟨?_, ?_, ?_⟩
  · constructor
    · intro h
      cases hh : (ordenarPorF1 (coletarResultados summaries)).head? with
      | none =>
        rw [List.head?_eq_none_iff] at hh
        have hperm := sortLe_perm (fun a b : MRow => decide (b.f1 ≤ a.f1))
          (coletarResultados summaries)
        rw [ordenarPorF1] at hh
        rw [hh] at hperm
        exact hperm.symm.eq_nil
      | some w =>
        rw [comparar_metodos, hh] at h
        simp at h
    · intro h
      rw [comparar_metodos]
      have hs : ordenarPorF1 (coletarResultados summaries) = [] := by
        rw [ordenarPorF1, h]
        rfl
      rw [hs]
      rfl
  · intro w rec h
    cases hh : (ordenarPorF1 (coletarResultados summaries)).head? with
    | none => rw [comparar_metodos, hh] at h; simp at h
    | some w0 =>
      rw [comparar_metodos, hh] at h
      simp only [Option.some.injEq, Prod.mk.injEq] at h
      rcases h with ⟨rfl, rfl⟩
      have hmem : w0 ∈ ordenarPorF1 (coletarResultados summaries) := by
        cases hl : ordenarPorF1 (coletarResultados summaries) with
        | nil => rw [hl] at hh; simp at hh
        | cons a l2 =>
          rw [hl] at hh
          simp only [List.head?_cons, Option.some.injEq] at hh
          rw [← hh]
          exact List.mem_cons_self a l2
      refine ⟨(mem_sortLe _ _ w0).mp hmem, ?_, rfl⟩
      intro r hr
      have := sortLe_head_max (fun a b : MRow => decide (b.f1 ≤ a.f1))
        mrowLe_total mrowLe_trans (coletarResultados summaries) w0 hh r hr
      simpa using this
  · intro r m h
    simp [getMetric, h]

theorem comparar_metodos_spec_witness :
    ((comparar_metodos (fun nt => if nt = "lexical_retrieval" then
        some [⟨"bm25", true, [("retrieval_f1", 1)]⟩] else none) = none ↔
      coletarResultados (fun nt => if nt = "lexical_retrieval" then
        some [⟨"bm25", true, [("retrieval_f1", 1)]⟩] else none) = []) ∧
    (∀ w rec, comparar_metodos (fun nt => if nt = "lexical_retrieval" then
        some [⟨"bm25", true, [("retrieval_f1", 1)]⟩] else none) =
        some (w, rec) →
      w ∈ coletarResultados (fun nt => if nt = "lexical_retrieval" then
        some [⟨"bm25", true, [("retrieval_f1", 1)]⟩] else none) ∧
      (∀ r ∈ coletarResultados (fun nt => if nt = "lexical_retrieval" then
        some [⟨"bm25", true, [("retrieval_f1", 1)]⟩] else none),
        r.f1 ≤ w.f1) ∧
      rec = recomendacao w.metodo) ∧
    (∀ (r : SRow) (m : String), r.metrics.lookup m = none →
      getMetric r m = 0)) :=
  comparar_metodos_spec (fun nt => if nt = "lexical_retrieval" then
    some [⟨"bm25", true, [("retrieval_f1", 1)]⟩] else none)

end AutoRAG
